import Mathlib

/-!
Verification of the sharded, column-family-routing key-value store layer
(`RocksDBStore.cc`): key codec, sharding-definition parser, partition
directory, merge router, shard-merge iterator, prefix deletion and the
compaction request queue.

Byte strings (`std::string`, `rocksdb::Slice`) are modelled as `List Nat`
(each element one byte); machine integers are `Nat`/`Int` with explicit
`% 2^w` where C++ integer conversions matter.
-/

namespace RocksDBStore

/-- A byte string (`std::string` / `rocksdb::Slice`): a list of byte values. -/
abbrev Str := List Nat

/-- `memcmp`-style strict lexicographic comparison of byte strings,
the order used by `std::string` `operator<` and the default rocksdb
`BytewiseComparator`. -/
def strLt : Str → Str → Bool
  | [], [] => false
  | [], _ :: _ => true
  | _ :: _, [] => false
  | a :: as, b :: bs => if a < b then true else if b < a then false else strLt as bs

/-- `std::string` `operator<=` on byte strings. -/
def strLe (a b : Str) : Bool := !(strLt b a)

theorem strLt_irrefl (a : Str) : strLt a a = false := by
  induction a with
  | nil => rfl
  | cons x xs ih => simp [strLt, ih]

theorem strLt_asymm {a b : Str} (h : strLt a b = true) : strLt b a = false := by
  induction a generalizing b with
  | nil =>
    cases b with
    | nil => simpa [strLt] using h
    | cons y ys => rfl
  | cons x xs ih =>
    cases b with
    | nil => simp [strLt] at h
    | cons y ys =>
      by_cases hxy : x < y
      · simp [strLt, hxy, Nat.lt_asymm hxy, Nat.ne_of_gt hxy]
      · by_cases hyx : y < x
        · simp [strLt, hxy, hyx] at h
        · have hxy' : x = y := Nat.le_antisymm (Nat.le_of_not_lt hyx) (Nat.le_of_not_lt hxy)
          subst hxy'
          simp only [strLt, if_neg hxy, if_neg hyx] at h ⊢
          exact ih h

theorem strLt_total {a b : Str} (h : strLt a b = false) (h' : strLt b a = false) : a = b := by
  induction a generalizing b with
  | nil =>
    cases b with
    | nil => rfl
    | cons y ys => simp [strLt] at h
  | cons x xs ih =>
    cases b with
    | nil => simp [strLt] at h'
    | cons y ys =>
      by_cases hxy : x < y
      · simp [strLt, hxy] at h
      · by_cases hyx : y < x
        · simp [strLt, hyx] at h'
        · have hxy' : x = y := Nat.le_antisymm (Nat.le_of_not_lt hyx) (Nat.le_of_not_lt hxy)
          subst hxy'
          simp only [strLt, if_neg hxy, if_neg hyx] at h h'
          exact congrArg (x :: ·) (ih h h')

theorem strLt_trans {a b c : Str} (h : strLt a b = true) (h' : strLt b c = true) :
    strLt a c = true := by
  induction a generalizing b c with
  | nil =>
    cases c with
    | nil =>
      cases b with
      | nil => exact absurd h' (by simp [strLt])
      | cons y ys => exact absurd h' (by simp [strLt])
    | cons z zs => rfl
  | cons x xs ih =>
    cases b with
    | nil => simp [strLt] at h
    | cons y ys =>
      cases c with
      | nil => simp [strLt] at h'
      | cons z zs =>
        by_cases hxy : x < y
        · by_cases hyz : y < z
          · simp [strLt, Nat.lt_trans hxy hyz]
          · by_cases hzy : z < y
            · simp [strLt, hyz, hzy] at h'
            · have : y = z := Nat.le_antisymm (Nat.le_of_not_lt hzy) (Nat.le_of_not_lt hyz)
              subst this
              simp [strLt, hxy]
        · by_cases hyx : y < x
          · simp [strLt, hxy, hyx] at h
          · have : x = y := Nat.le_antisymm (Nat.le_of_not_lt hyx) (Nat.le_of_not_lt hxy)
            subst this
            simp only [strLt, if_neg hxy, if_neg hyx] at h
            by_cases hyz : x < z
            · simp [strLt, hyz]
            · by_cases hzy : z < x
              · simp [strLt, hyz, hzy] at h'
              · have : x = z := Nat.le_antisymm (Nat.le_of_not_lt hzy) (Nat.le_of_not_lt hyz)
                subst this
                simp only [strLt, if_neg hyz, if_neg hzy] at h' ⊢
                exact ih h h'

theorem strLe_of_strLt {a b : Str} (h : strLt a b = true) : strLe a b = true := by
  simp [strLe, strLt_asymm h]

theorem strLe_antisymm {a b : Str} (h : strLe a b = true) (h' : strLe b a = true) : a = b := by
  simp only [strLe, Bool.not_eq_true'] at h h'
  exact strLt_total h' h

/-! ## Key codec

`RocksDBStore::split_key` decodes a physical key of the shared default
column family into its logical (prefix, suffix) pair; the encoding
(`combine_strings`, declared in `RocksDBStore.h`) is `prefix || 0x00 || suffix`.
-/

/-- Modelled from the spec: `combine_strings` (declared in `RocksDBStore.h`,
which is not part of the sampled sources) produces the physical key used on
the shared default partition: `prefix-bytes || 0x00 || suffix-bytes`. -/
def combineStrings (pfx sfx : Str) : Str := pfx ++ 0 :: sfx

/-- `RocksDBStore::split_key`: `memchr` for the first NUL byte; `-EINVAL`
(modelled as `none`) when there is none; the guard `prefix_len >= in.size()`
is kept from the source even though a found separator always lies inside
the slice. -/
def splitKey (bs : Str) : Option (Str × Str) :=
  match bs.findIdx? (fun b => b == 0) with
  | none => none
  | some i => if i ≥ bs.length then none else some (bs.take i, bs.drop (i + 1))

theorem findIdx_zero_append {sfx : Str} :
    ∀ pfx : Str, (0 : Nat) ∉ pfx →
      (pfx ++ 0 :: sfx).findIdx? (fun b => b == 0) = some pfx.length := by
  intro pfx
  induction pfx with
  | nil => intro _; simp [List.findIdx?_cons]
  | cons a as ih =>
    intro h
    have ha : a ≠ 0 := fun hc => h (by simp [hc])
    have hm : (0 : Nat) ∉ as := fun hc => h (List.mem_cons_of_mem _ hc)
    simp [List.findIdx?_cons, ha, ih hm]

/-- C2: decoding the shared-default-partition encoding
`prefix || 0x00 || suffix` with `split_key` succeeds and returns exactly the
pair `(prefix, suffix)`, for every prefix containing no NUL byte and every
suffix (including the empty one). -/
theorem split_key_roundtrip (pfx sfx : Str) (h : (0 : Nat) ∉ pfx) :
    splitKey (combineStrings pfx sfx) = some (pfx, sfx) := by
  have hlen : pfx.length < (pfx ++ 0 :: sfx).length := by
    simp [List.length_append]
  simp only [splitKey, combineStrings, findIdx_zero_append pfx h]
  rw [if_neg (by omega)]
  congr 1
  have ht : (pfx ++ 0 :: sfx).take pfx.length = pfx := by
    simpa using List.take_left pfx (0 :: sfx)
  have hd : (pfx ++ 0 :: sfx).drop (pfx.length + 1) = sfx := by
    have := @List.drop_append _ pfx (0 :: sfx) 1
    simpa [Nat.add_comm] using this
  rw [ht, hd]

/-- Witness for C2 at a concrete input. -/
theorem split_key_roundtrip_witness :
    (0 : Nat) ∉ ([99, 97, 115] : Str) ∧
      splitKey (combineStrings [99, 97, 115] [107, 49]) = some ([99, 97, 115], [107, 49]) :=
  ⟨by decide, split_key_roundtrip [99, 97, 115] [107, 49] (by decide)⟩

/-- Counterexample to C10: a key whose first NUL is its last byte is decoded
successfully (empty suffix), not rejected as malformed. -/
theorem split_key_trailing_nul_ok :
    splitKey [97, 0] = some ([97], []) ∧ splitKey [97, 0] ≠ none := by
  constructor
  · rfl
  · intro h
    simp [splitKey] at h

theorem findIdx_zero_none {bs : Str} (h : (0 : Nat) ∉ bs) :
    bs.findIdx? (fun b => b == 0) = none := by
  induction bs with
  | nil => rfl
  | cons a as ih =>
    have ha : a ≠ 0 := fun hc => h (by simp [hc])
    have hm : (0 : Nat) ∉ as := fun hc => h (List.mem_cons_of_mem _ hc)
    simp [List.findIdx?_cons, ha, ih hm]

theorem findIdx_zero_mem {bs : Str} (h : (0 : Nat) ∈ bs) :
    bs.findIdx? (fun b => b == 0) =
        some (bs.takeWhile (fun b => b ≠ 0)).length ∧
      (bs.takeWhile (fun b => b ≠ 0)).length < bs.length := by
  induction bs with
  | nil => cases h
  | cons a as ih =>
    by_cases ha : a = 0
    · subst ha
      simp [List.findIdx?_cons, List.takeWhile_cons]
    · have hin : (0 : Nat) ∈ as := by
        rcases List.mem_cons.mp h with h0 | h0
        · exact absurd h0.symm ha
        · exact h0
      have := ih hin
      constructor
      · simp [List.findIdx?_cons, ha, List.findIdx?_succ, this.1, List.takeWhile_cons]
      · have h1 : (a :: as).takeWhile (fun b => b ≠ 0) =
            a :: as.takeWhile (fun b => b ≠ 0) := by
          simp [List.takeWhile_cons, ha]
        rw [h1]
        simp only [List.length_cons]
        exact Nat.succ_lt_succ this.2

theorem take_takeWhile_length (p : Nat → Bool) (l : Str) :
    l.take (l.takeWhile p).length = l.takeWhile p := by
  set w := l.takeWhile p with hw
  rcases @List.takeWhile_prefix _ l p with ⟨t, ht⟩
  rw [← hw] at ht
  rw [← ht]
  exact List.take_left _ _

/-- C10 (amended): `split_key` fails exactly when the input contains no NUL
byte at all; when a NUL is present — even as the last byte — decoding
succeeds, returning the bytes before the first NUL as prefix and the bytes
after it as (possibly empty) suffix. -/
theorem split_key_fail_iff_no_nul (bs : Str) :
    (splitKey bs = none ↔ (0 : Nat) ∉ bs) ∧
      ((0 : Nat) ∈ bs →
        splitKey bs =
          some (bs.takeWhile (fun b => b ≠ 0),
                bs.drop ((bs.takeWhile (fun b => b ≠ 0)).length + 1))) := by
  by_cases hmem : (0 : Nat) ∈ bs
  · rcases findIdx_zero_mem hmem with ⟨hfi, hlt⟩
    have hs : splitKey bs =
        some (bs.takeWhile (fun b => b ≠ 0),
              bs.drop ((bs.takeWhile (fun b => b ≠ 0)).length + 1)) := by
      simp only [splitKey, hfi]
      rw [if_neg (by omega)]
      rw [take_takeWhile_length]
    refine ⟨⟨fun h => ?_, fun h => absurd hmem h⟩, fun _ => hs⟩
    rw [hs] at h
    exact Option.noConfusion h
  · have hfi := findIdx_zero_none hmem
    exact ⟨⟨fun _ => hmem, fun _ => by simp [splitKey, hfi]⟩,
      fun h => absurd h hmem⟩

/-- Witness for the amended C10 at a concrete input with a NUL present. -/
theorem split_key_fail_iff_no_nul_witness :
    (0 : Nat) ∈ ([97, 0] : Str) ∧ splitKey [97, 0] = some ([97], []) :=
  ⟨by decide, by
    have h := (split_key_fail_iff_no_nul [97, 0]).2 (by decide)
    simpa using h⟩

/-! ## Partition directory

`RocksDBStore::get_cf_handle(prefix, key)` resolves a logical (prefix, key)
pair to a physical column-family handle.  `cf_handles` maps a logical prefix
to its hash bounds and the ordered shard handle vector; handle slots are
`Option H` (a slot holds `none` for a C++ null pointer, and the function
returns `none` for the C++ `nullptr` "no dedicated partition" result).
`ceph_str_hash_rjenkins` is not part of the sampled sources and is taken as
an opaque parameter `rj`; the `uint32_t` type of the hash variable and of
the clamped bounds is kept as explicit `% 2 ^ 32` arithmetic. -/

/-- One entry of `cf_handles` (`prefix_shards` in `RocksDBStore.h`). -/
structure PrefixShards (H : Type) where
  hash_l : Nat
  hash_h : Nat
  handles : List (Option H)

/-- `std::map`/`std::unordered_map` `find` on an association list. -/
def assocFind {β : Type} (m : List (Str × β)) (k : Str) : Option β :=
  match m with
  | [] => none
  | (k', v) :: rest => if k' = k then some v else assocFind rest k

/-- `RocksDBStore::get_cf_handle(prefix, key)`.  Absent entry ⇒ `none`
(C++ `nullptr`); single-shard entry ⇒ `handles[0]`; otherwise the key bytes
in the clamped hash range are hashed and the handle at `hash % shard_count`
is returned. -/
def getCfHandle {H : Type} (rj : Str → Nat) (cfs : List (Str × PrefixShards H))
    (pfx key : Str) : Option H :=
  match assocFind cfs pfx with
  | none => none
  | some e =>
    if e.handles.length = 1 then e.handles.getD 0 none
    else
      let hl := min e.hash_l (key.length % 2 ^ 32)
      let hh := min e.hash_h (key.length % 2 ^ 32)
      let sliceLen := (2 ^ 32 + hh - hl) % 2 ^ 32
      let h32 := rj ((key.drop hl).take sliceLen) % 2 ^ 32
      e.handles.getD (h32 % e.handles.length) none

theorem getD_isSome_of_all {H : Type} (hs : List (Option H)) (i : Nat)
    (hi : i < hs.length) (hall : ∀ s ∈ hs, s.isSome) : (hs.getD i none).isSome := by
  induction hs generalizing i with
  | nil => cases hi
  | cons a as ih =>
    cases i with
    | zero => exact hall a (List.mem_cons_self _ _)
    | succ j =>
      have : (a :: as).getD (j + 1) none = as.getD j none := by
        simp [List.getD_cons_succ]
      rw [this]
      exact ih j (Nat.lt_of_succ_lt_succ hi) (fun s hs' => hall s (List.mem_cons_of_mem _ hs'))

/-- C1: partition resolution.  For every directory, prefix and key (shorter
than 2^32 bytes, the range where `std::min<uint32_t>` clamping is exact):
an absent entry yields no handle; an entry with exactly one shard yields
that shard; an entry with N > 1 shards yields
`handles[rjenkins(key[min(hash_l,len) .. min(hash_h,len))) % N]`; resolution
of a present, fully populated entry never fails; and a key shorter than
`hash_l` is hashed over the empty slice. -/
theorem get_cf_handle_resolution {H : Type} (rj : Str → Nat)
    (cfs : List (Str × PrefixShards H)) (pfx key : Str)
    (hrj : ∀ s, rj s < 2 ^ 32) (hklen : key.length < 2 ^ 32) :
    (assocFind cfs pfx = none → getCfHandle rj cfs pfx key = none) ∧
    (∀ e, assocFind cfs pfx = some e → e.handles.length = 1 →
      getCfHandle rj cfs pfx key = e.handles.getD 0 none) ∧
    (∀ e, assocFind cfs pfx = some e → 1 < e.handles.length → e.hash_l ≤ e.hash_h →
      getCfHandle rj cfs pfx key =
        e.handles.getD
          (rj ((key.drop (min e.hash_l key.length)).take
                (min e.hash_h key.length - min e.hash_l key.length)) %
            e.handles.length) none) ∧
    (∀ e, assocFind cfs pfx = some e → 1 ≤ e.handles.length → e.hash_l ≤ e.hash_h →
      (∀ slot ∈ e.handles, slot.isSome) → (getCfHandle rj cfs pfx key).isSome) ∧
    (∀ e, assocFind cfs pfx = some e → key.length ≤ e.hash_l →
      (key.drop (min e.hash_l key.length)).take
        (min e.hash_h key.length - min e.hash_l key.length) = []) := by
  have hmod : key.length % 2 ^ 32 = key.length := Nat.mod_eq_of_lt hklen
  have hbranch : ∀ e, assocFind cfs pfx = some e → 1 < e.handles.length →
      e.hash_l ≤ e.hash_h →
      getCfHandle rj cfs pfx key =
        e.handles.getD
          (rj ((key.drop (min e.hash_l key.length)).take
                (min e.hash_h key.length - min e.hash_l key.length)) %
            e.handles.length) none := by
    intro e he hn hlh
    have hle : min e.hash_l key.length ≤ min e.hash_h key.length := by omega
    have hhb : min e.hash_h key.length ≤ key.length := Nat.min_le_right _ _
    have hslice : (2 ^ 32 + min e.hash_h key.length - min e.hash_l key.length) % 2 ^ 32 =
        min e.hash_h key.length - min e.hash_l key.length := by
      have h1 : min e.hash_h key.length - min e.hash_l key.length < 2 ^ 32 := by omega
      have h2 : 2 ^ 32 + min e.hash_h key.length - min e.hash_l key.length =
          2 ^ 32 + (min e.hash_h key.length - min e.hash_l key.length) := by omega
      rw [h2, Nat.add_mod_left, Nat.mod_eq_of_lt h1]
    have hr : rj ((key.drop (min e.hash_l key.length)).take
          (min e.hash_h key.length - min e.hash_l key.length)) % 2 ^ 32 =
        rj ((key.drop (min e.hash_l key.length)).take
          (min e.hash_h key.length - min e.hash_l key.length)) :=
      Nat.mod_eq_of_lt (hrj _)
    simp only [getCfHandle, he, hmod, hslice]
    rw [if_neg (by omega)]
    rw [hr]
  refine ⟨fun h => by simp [getCfHandle, h], fun e he h1 => by simp [getCfHandle, he, h1],
    hbranch, ?_, ?_⟩
  · intro e he hn hlh hall
    rcases Nat.lt_or_ge 1 e.handles.length with hgt | hle1
    · rw [hbranch e he hgt hlh]
      exact getD_isSome_of_all _ _ (Nat.mod_lt _ (by omega)) hall
    · have h1 : e.handles.length = 1 := Nat.le_antisymm hle1 hn
      have : getCfHandle rj cfs pfx key = e.handles.getD 0 none := by
        simp [getCfHandle, he, h1]
      rw [this]
      exact getD_isSome_of_all _ _ (by omega) hall
  · intro e he hshort
    have : min e.hash_l key.length = key.length := Nat.min_eq_right hshort
    rw [this, List.drop_length, List.take_nil]

/-- Witness for C1: a directory with one three-shard entry; the key bytes in
positions [2,6) sum to 18, so the shard at index 18 % 3 = 0 is returned. -/
theorem get_cf_handle_resolution_witness :
    getCfHandle (fun s => s.sum % 2 ^ 32)
        [([111], ⟨2, 6, [some 10, some 11, some 12]⟩)] [111]
        [1, 2, 3, 4, 5, 6, 7, 8] = some (10 : Nat) := by
  have h := (@get_cf_handle_resolution Nat (fun s => s.sum % 2 ^ 32)
      [([111], ⟨2, 6, [some 10, some 11, some 12]⟩)] [111] [1, 2, 3, 4, 5, 6, 7, 8]
      (fun s => Nat.mod_lt _ (by norm_num)) (by norm_num)).2.2.1
      ⟨2, 6, [some 10, some 11, some 12]⟩ rfl (by norm_num) (by norm_num)
  rw [h]
  rfl

/-! ## Merge router (shared default column family)

`RocksDBStore::MergeOperatorRouter` dispatches a merge on the default
column family by scanning the registered `(prefix, operator)` pairs in
registration order.  A pair matches when the physical key starts with the
prefix bytes immediately followed by the NUL separator (the C++ code reads
the raw bytes `key[0 .. len] `; a key shorter than `len+1` bytes is
modelled as a mismatch — physical shared-partition keys always contain the
separator). -/

/-- A registered domain merge operator (`KeyValueDB::MergeOperator`):
its engine-visible name and its two combine functions. -/
structure MergeOpModel where
  name : Str
  mergeFull : Str → Str → Str
  mergeNonexistent : Str → Str

/-- `MergeOperatorRouter::Merge`: first matching registered pair is applied
(`merge` when an existing value is present, `merge_nonexistent` otherwise);
the returned flag is the C++ return value, the `Option Str` is `new_value`
(`none` when no pair matched and the out-parameter is left untouched). -/
def routerMerge (ops : List (Str × MergeOpModel)) (key : Str)
    (existing : Option Str) (value : Str) : Bool × Option Str :=
  match ops with
  | [] => (true, none)
  | (p, op) :: rest =>
    if key.take (p.length + 1) == p ++ [0] then
      (true, some (match existing with
        | some e => op.mergeFull e value
        | none => op.mergeNonexistent value))
    else routerMerge rest key existing value

/-- C4: the shared-partition merge selects the first registered pair, in
registration order, whose prefix followed by a NUL byte equals the leading
bytes of the physical key, applies `merge` or `merge_nonexistent` according
to whether an existing value is present — and always reports success, also
when no registered prefix matches. -/
theorem merge_router_first_match (ops : List (Str × MergeOpModel)) (key : Str)
    (existing : Option Str) (value : Str) :
    (routerMerge ops key existing value).1 = true ∧
    (routerMerge ops key existing value).2 =
      (ops.find? (fun p => key.take (p.1.length + 1) == p.1 ++ [0])).map
        (fun p => match existing with
          | some e => p.2.mergeFull e value
          | none => p.2.mergeNonexistent value) := by
  induction ops with
  | nil => exact ⟨rfl, rfl⟩
  | cons hd rest ih =>
    rcases hd with ⟨p, op⟩
    by_cases hmatch : key.take (p.length + 1) == p ++ [0]
    · simp [routerMerge, List.find?_cons, hmatch]
    · simp only [routerMerge, List.find?_cons]
      rw [if_neg hmatch]
      have hb : (key.take (p.length + 1) == p ++ [0]) = false := by
        simpa using hmatch
      rw [hb]
      exact ih

/-! ## Merge-operator identity (`MergeOperatorRouter::Name`)

`Name()` folds all registered `(prefix, operator)` pairs into a
`std::map<string,string>` (later registrations overwrite earlier ones with
the same prefix), erases every prefix bound to a dedicated column family,
and concatenates `"." + prefix + ":" + name` in ascending prefix order. -/

theorem strLt_ne {a b : Str} (h : strLt a b = true) : a ≠ b := by
  intro he
  subst he
  rw [strLt_irrefl] at h
  exact Bool.noConfusion h

theorem strLt_connex (a b : Str) (h : a ≠ b) : strLt a b = true ∨ strLt b a = true := by
  by_cases h1 : strLt a b = true
  · exact Or.inl h1
  · by_cases h2 : strLt b a = true
    · exact Or.inr h2
    · exact absurd (strLt_total (Bool.eq_false_iff.mpr h1) (Bool.eq_false_iff.mpr h2)) h

/-- `std::map<string,string>` insert-or-assign (`names[k] = v`) on a
key-sorted association list. -/
def mapInsert (m : List (Str × Str)) (k v : Str) : List (Str × Str) :=
  match m with
  | [] => [(k, v)]
  | (k', v') :: rest =>
    if strLt k k' then (k, v) :: (k', v') :: rest
    else if k = k' then (k, v) :: rest
    else (k', v') :: mapInsert rest k v

/-- `std::map::erase(k)` (on a well-formed map every key occurs once). -/
def mapEraseKey (m : List (Str × Str)) (k : Str) : List (Str × Str) :=
  m.filter (fun p => p.1 ≠ k)

/-- `MergeOperatorRouter::Name`: build the sorted prefix → operator-name
map from `merge_ops` (registration order, last assignment wins), erase the
prefixes having dedicated column families, then concatenate
`'.' ++ prefix ++ ':' ++ name` over the map in ascending key order. -/
def routerName (ops : List (Str × MergeOpModel)) (cfNames : List Str) : Str :=
  let names := ops.foldl (fun m p => mapInsert m p.1 p.2.name) []
  let names2 := cfNames.foldl (fun m k => mapEraseKey m k) names
  names2.foldl (fun acc p => acc ++ 46 :: p.1 ++ 58 :: p.2) []

theorem mapInsert_comm (k1 k2 v1 v2 : Str) (hne : k1 ≠ k2) :
    ∀ m : List (Str × Str),
      mapInsert (mapInsert m k1 v1) k2 v2 = mapInsert (mapInsert m k2 v2) k1 v1 := by
  intro m
  induction m with
  | nil =>
    rcases strLt_connex k1 k2 hne with h12 | h21
    · have h21f := strLt_asymm h12
      simp [mapInsert, h12, h21f, hne, Ne.symm hne]
    · have h12f := strLt_asymm h21
      simp [mapInsert, h21, h12f, hne, Ne.symm hne]
  | cons hd rest ih =>
    rcases hd with ⟨k', w⟩
    rcases strLt_connex k1 k2 hne with h12 | h21
    all_goals have hasym := strLt_asymm (by assumption)
    · -- k1 < k2
      by_cases hA : strLt k1 k' = true
      · by_cases hB : strLt k2 k' = true
        · simp [mapInsert, hA, hB, h12, hasym, hne, Ne.symm hne]
        · by_cases hC : k2 = k'
          · subst hC
            simp [mapInsert, hA, hB, hasym, hne, Ne.symm hne, strLt_irrefl]
          · simp [mapInsert, hA, hB, hC, h12, hasym, hne, Ne.symm hne]
      · by_cases hC : k1 = k'
        · subst hC
          have hB : strLt k2 k1 = false := hasym
          simp [mapInsert, hB, hA, strLt_irrefl, hne, Ne.symm hne, h12]
        · -- k' < k1 < k2
          have hk'1 : strLt k' k1 = true := by
            rcases strLt_connex k' k1 (Ne.symm hC) with h | h
            · exact h
            · exact absurd h (by simp [hA])
          have hB : strLt k2 k' = false := by
            have := strLt_trans hk'1 h12
            exact strLt_asymm this
          have hC2 : k2 ≠ k' := by
            intro he
            subst he
            exact absurd (strLt_trans hk'1 h12) (by simp [strLt_irrefl])
          simp [mapInsert, hA, hB, hC, hC2, ih]
    · -- k2 < k1 (mirror)
      by_cases hA : strLt k2 k' = true
      · by_cases hB : strLt k1 k' = true
        · simp [mapInsert, hA, hB, h21, hasym, hne, Ne.symm hne]
        · by_cases hC : k1 = k'
          · subst hC
            simp [mapInsert, hA, hB, hasym, hne, Ne.symm hne, strLt_irrefl]
          · simp [mapInsert, hA, hB, hC, h21, hasym, hne, Ne.symm hne]
      · by_cases hC : k2 = k'
        · subst hC
          have hB : strLt k1 k2 = false := hasym
          simp [mapInsert, hB, hA, strLt_irrefl, hne, Ne.symm hne, h21]
        · have hk'2 : strLt k' k2 = true := by
            rcases strLt_connex k' k2 (Ne.symm hC) with h | h
            · exact h
            · exact absurd h (by simp [hA])
          have hB : strLt k1 k' = false := by
            have := strLt_trans hk'2 h21
            exact strLt_asymm this
          have hC2 : k1 ≠ k' := by
            intro he
            subst he
            exact absurd (strLt_trans hk'2 h21) (by simp [strLt_irrefl])
          simp [mapInsert, hA, hB, hC, hC2, ih]

theorem buildMap_perm {l1 l2 : List (Str × MergeOpModel)} (h : l1.Perm l2)
    (hc : ∀ p ∈ l1, ∀ q ∈ l1, p.1 = q.1 → p.2.name = q.2.name) :
    ∀ m0, l1.foldl (fun m p => mapInsert m p.1 p.2.name) m0 =
      l2.foldl (fun m p => mapInsert m p.1 p.2.name) m0 := by
  induction h with
  | nil => intro m0; rfl
  | cons x _ ih =>
    intro m0
    simp only [List.foldl_cons]
    exact ih (fun p hp q hq => hc p (List.mem_cons_of_mem _ hp)
      q (List.mem_cons_of_mem _ hq)) _
  | swap x y l =>
    intro m0
    simp only [List.foldl_cons]
    by_cases hk : y.1 = x.1
    · have hn : y.2.name = x.2.name :=
        hc y (List.mem_cons_self _ _) x (List.mem_cons_of_mem _ (List.mem_cons_self _ _)) hk
      rw [hk, hn]
    · rw [mapInsert_comm _ _ _ _ hk]
  | trans h12 _ ih12 ih23 =>
    intro m0
    rw [ih12 hc m0]
    exact ih23 (fun p hp q hq =>
      hc p (h12.mem_iff.mpr hp) q (h12.mem_iff.mpr hq)) m0

/-- Counterexample to C7 as stated: two registration sequences that register
the same set of (prefix, operator) pairs in swapped order, where one prefix
carries two operators with different names; `Name()` keeps the last
registration per prefix, so the identity strings differ. -/
theorem merge_router_name_order_dependent :
    List.Perm
        [([112], (⟨[97], fun a _ => a, fun v => v⟩ : MergeOpModel)),
         ([112], (⟨[98], fun a _ => a, fun v => v⟩ : MergeOpModel))]
        [([112], (⟨[98], fun a _ => a, fun v => v⟩ : MergeOpModel)),
         ([112], (⟨[97], fun a _ => a, fun v => v⟩ : MergeOpModel))] ∧
      routerName
          [([112], (⟨[97], fun a _ => a, fun v => v⟩ : MergeOpModel)),
           ([112], (⟨[98], fun a _ => a, fun v => v⟩ : MergeOpModel))] [] ≠
        routerName
          [([112], (⟨[98], fun a _ => a, fun v => v⟩ : MergeOpModel)),
           ([112], (⟨[97], fun a _ => a, fun v => v⟩ : MergeOpModel))] [] := by
  constructor
  · exact List.Perm.swap _ _ _
  · intro h
    have : ([46, 112, 58, 98] : Str) = [46, 112, 58, 97] := h
    simp at this

/-- C7 (amended): provided no two registrations share a prefix with
different operator names (in particular whenever registered prefixes are
distinct), the identity string produced by `MergeOperatorRouter::Name` is
the same for any two registration orders of the same pairs, given the same
dedicated-partition prefixes: the sorted map makes it a function of the
registration set minus the dedicated prefixes. -/
theorem merge_router_name_order_independent (ops1 ops2 : List (Str × MergeOpModel))
    (cfNames : List Str) (hperm : ops1.Perm ops2)
    (hcompat : ∀ p ∈ ops1, ∀ q ∈ ops1, p.1 = q.1 → p.2.name = q.2.name) :
    routerName ops1 cfNames = routerName ops2 cfNames := by
  unfold routerName
  rw [buildMap_perm hperm hcompat []]

/-- Witness for the amended C7: two orders of a two-element registration
set with distinct prefixes produce the same identity string. -/
theorem merge_router_name_order_independent_witness :
    routerName
        [([112], (⟨[97], fun a _ => a, fun v => v⟩ : MergeOpModel)),
         ([113], (⟨[98], fun a _ => a, fun v => v⟩ : MergeOpModel))] [] =
      routerName
        [([113], (⟨[98], fun a _ => a, fun v => v⟩ : MergeOpModel)),
         ([112], (⟨[97], fun a _ => a, fun v => v⟩ : MergeOpModel))] [] := by
  refine merge_router_name_order_independent _ _ _ (List.Perm.swap _ _ _) ?_
  intro p hp q hq hpq
  rcases List.mem_cons.mp hp with h1 | h1 <;> rcases List.mem_cons.mp hq with h2 | h2 <;>
    simp_all

/-! ## Sharding-definition parser

`RocksDBStore::parse_sharding_def` parses the space-separated
`name['(' shard_count [',' hash_low '-' [hash_high]] ')'] ['=' options]`
grammar.  The C++ walks raw pointers with `strtol`, reading past the
current token view up to the terminating NUL of the underlying buffer;
the model therefore works with absolute byte positions in the full input,
where a read at or past the end yields 0 (the NUL terminator).  `strtol`
overflow clamping to `LONG_MAX` is not modelled (all inputs used here are
far below it); the `long`→`size_t` and `long`→`uint32_t` conversions keep
their modular semantics. -/

/-- ASCII bytes of a string literal. -/
def strB (s : String) : Str := s.toList.map Char.toNat

/-- Read the byte at an absolute position; 0 at or past the end (the NUL
terminator of the underlying `c_str` buffer). -/
def charAt (s : Str) (i : Nat) : Nat := s.getD i 0

def isSpaceByte (c : Nat) : Bool :=
  c = 32 || c = 9 || c = 10 || c = 11 || c = 12 || c = 13

def isDigitByte (c : Nat) : Bool := 48 ≤ c && c ≤ 57

/-- Digit-accumulation loop of `strtol` (base 10). -/
def digitsLoop : Nat → Str → Nat → Int → Int × Nat
  | 0, _, i, acc => (acc, i)
  | fuel + 1, s, i, acc =>
    if isDigitByte (charAt s i) then
      digitsLoop fuel s (i + 1) (10 * acc + ((charAt s i : Int) - 48))
    else (acc, i)

/-- Leading-whitespace skip of `strtol`. -/
def skipWs : Nat → Str → Nat → Nat
  | 0, _, i => i
  | fuel + 1, s, i => if isSpaceByte (charAt s i) then skipWs fuel s (i + 1) else i

/-- `strtol(nptr, &endptr, 10)` from absolute position `i`: returns the
parsed value and the `endptr` position; when no digits could be consumed
the value is 0 and `endptr` is the original `nptr`. -/
def strtol (s : Str) (i : Nat) : Int × Nat :=
  let j := skipWs (s.length + 1) s i
  let jsgn := if charAt s j = 45 || charAt s j = 43 then j + 1 else j
  let vp := digitsLoop (s.length + 1) s jsgn 0
  if vp.2 = jsgn then (0, i)
  else (if charAt s j = 45 then -vp.1 else vp.1, vp.2)

/-- First position of byte `c` at or after `i`, scanning `fuel` positions. -/
def findCharIn : Nat → Str → Nat → Nat → Option Nat
  | 0, _, _, _ => none
  | fuel + 1, s, c, i => if charAt s i = c then some i else findCharIn fuel s c (i + 1)

/-- Bytes of positions `[a, b)`. -/
def sliceBytes (s : Str) (a b : Nat) : Str := (s.take b).drop a

/-- One parsed column-family definition (`RocksDBStore::ColumnFamily`),
fields in `emplace_back` order: name, shard count, options, hash bounds. -/
structure ColumnFamily where
  name : Str
  shard_cnt : Nat
  options : Str
  hash_l : Nat
  hash_h : Nat
deriving DecidableEq

def u32max : Nat := 4294967295

/-- Main token loop of `parse_sharding_def`; `pos` is the start of the
unconsumed input (`text_def`), `acc` the specs emplaced so far.  An error
stops the loop, keeping the specs already produced (the C++ `break`). -/
def parseGo : Nat → Str → Nat → List ColumnFamily →
    List ColumnFamily × Option (Nat × String)
  | 0, _, _, acc => (acc, none)
  | fuel + 1, s, pos, acc =>
    if pos ≥ s.length then (acc, none)
    else
      let spos := findCharIn (s.length - pos) s 32 pos
      let tokEnd := match spos with | some sp => sp | none => s.length
      let nextPos := match spos with | some sp => sp + 1 | none => s.length
      let eqpos := findCharIn (tokEnd - pos) s 61 pos
      let cdEnd := match eqpos with | some e => e | none => tokEnd
      let options := match eqpos with | some e => sliceBytes s (e + 1) tokEnd | none => []
      match findCharIn (cdEnd - pos) s 40 pos with
      | none =>
        parseGo fuel s nextPos (acc ++ [⟨sliceBytes s pos cdEnd, 1, options, 0, u32max⟩])
      | some b =>
        let name := sliceBytes s pos b
        let r1 := strtol s (b + 1)
        if r1.2 = b + 1 then (acc, some (b + 1, "expecting integer"))
        else
          let shardCnt := (r1.1 % (18446744073709551616 : Int)).toNat
          if charAt s r1.2 = 44 then
            let r2 := strtol s (r1.2 + 1)
            if r2.2 = r1.2 + 1 then (acc, some (r1.2 + 1, "expecting integer"))
            else
              let lB := (r2.1 % (4294967296 : Int)).toNat
              if charAt s r2.2 ≠ 45 then (acc, some (r2.2, "expecting -"))
              else
                let r3 := strtol s (r2.2 + 1)
                let hB := if r3.2 = r2.2 + 1 then u32max else (r3.1 % (4294967296 : Int)).toNat
                let pA := if r3.2 = r2.2 + 1 then r2.2 + 1 else r3.2
                if charAt s pA ≠ 41 then (acc, some (pA, "expecting )"))
                else parseGo fuel s nextPos (acc ++ [⟨name, shardCnt, options, lB, hB⟩])
          else
            if charAt s r1.2 ≠ 41 then (acc, some (r1.2, "expecting )"))
            else parseGo fuel s nextPos (acc ++ [⟨name, shardCnt, options, 0, u32max⟩])

/-- `RocksDBStore::parse_sharding_def`: the parse result together with the
error position/message (`none` means success, the C++ `true` return). -/
def parseShardingDef (s : Str) : List ColumnFamily × Option (Nat × String) :=
  parseGo (s.length + 1) s 0 []

/-- C6: the sharding text `"O(6) m(7,10-) prefix(4,0-10)=disable_auto_compactions=true"`
parses successfully into exactly three column-family specs named O, m and
prefix, with shard counts 6, 7 and 4, hash ranges [0, u32::MAX),
[10, u32::MAX) and [0, 10), the third carrying the option string
`"disable_auto_compactions=true"`. -/
theorem sharding_def_example_parse :
    parseShardingDef (strB "O(6) m(7,10-) prefix(4,0-10)=disable_auto_compactions=true") =
      ([⟨strB "O", 6, strB "", 0, 4294967295⟩,
        ⟨strB "m", 7, strB "", 10, 4294967295⟩,
        ⟨strB "prefix", 4, strB "disable_auto_compactions=true", 0, 10⟩], none) := by
  decide

/-- Counterexample to C9: `"a(0,10-5) a"` parses successfully, yet the
produced specs violate every part of the claimed invariant: a shard count
of 0, explicit bounds with hash_low ≥ hash_high, and a duplicated name. -/
theorem sharding_def_invariant_violated :
    parseShardingDef (strB "a(0,10-5) a") =
        ([⟨strB "a", 0, strB "", 10, 5⟩, ⟨strB "a", 1, strB "", 0, 4294967295⟩], none) ∧
      (∃ cf ∈ (parseShardingDef (strB "a(0,10-5) a")).1, cf.shard_cnt < 1) ∧
      (∃ cf ∈ (parseShardingDef (strB "a(0,10-5) a")).1, ¬ cf.hash_l < cf.hash_h) ∧
      ¬ ((parseShardingDef (strB "a(0,10-5) a")).1.map (fun cf => cf.name)).Nodup := by
  refine ⟨by decide, ?_, ?_, by decide⟩
  · exact ⟨⟨strB "a", 0, strB "", 10, 5⟩, by decide, by decide⟩
  · exact ⟨⟨strB "a", 0, strB "", 10, 5⟩, by decide, by decide⟩

/-- `std::vector` slot write with the `resize(shard_idx + 1)` growth of
`add_column_family`; empty slots are null pointers (`none`). -/
def setSlot {H : Type} (hs : List (Option H)) (i : Nat) (h : H) : List (Option H) :=
  let hs' := if hs.length ≤ i then hs ++ List.replicate (i + 1 - hs.length) none else hs
  hs'.set i (some h)

/-- In-place update of the mapped value (`std::map::operator[]` reference). -/
def assocSet {β : Type} (m : List (Str × β)) (k : Str) (v : β) : List (Str × β) :=
  match m with
  | [] => [(k, v)]
  | (k', v') :: rest => if k' = k then (k, v) :: rest else (k', v') :: assocSet rest k v

/-- `RocksDBStore::add_column_family`: re-registration asserts the stored
hash bounds are unchanged, first registration asserts `hash_l < hash_h`;
`none` models a failed `ceph_assert`. -/
def addColumnFamily {H : Type} (cfs : List (Str × PrefixShards H)) (cfName : Str)
    (hashL hashH shardIdx : Nat) (handle : H) : Option (List (Str × PrefixShards H)) :=
  match assocFind cfs cfName with
  | some col =>
    if hashL = col.hash_l ∧ hashH = col.hash_h then
      some (assocSet cfs cfName ⟨col.hash_l, col.hash_h, setSlot col.handles shardIdx handle⟩)
    else none
  | none =>
    if hashL < hashH then
      some (cfs ++ [(cfName, ⟨hashL, hashH, setSlot [] shardIdx handle⟩)])
    else none

/-- C9 (amended): the parser itself does not enforce the data-model
invariant; the `hash_l < hash_h` component is enforced at registration
time: a successful `add_column_family` on a fresh column-family name
implies `hash_l < hash_h`, and a successful re-registration implies the
bounds equal the stored ones. -/
theorem add_column_family_enforces_bounds {H : Type} (cfs : List (Str × PrefixShards H))
    (cfName : Str) (hashL hashH shardIdx : Nat) (handle : H)
    (cfs' : List (Str × PrefixShards H))
    (hsucc : addColumnFamily cfs cfName hashL hashH shardIdx handle = some cfs') :
    (assocFind cfs cfName = none → hashL < hashH) ∧
      (∀ col, assocFind cfs cfName = some col →
        hashL = col.hash_l ∧ hashH = col.hash_h) := by
  constructor
  · intro hnone
    simp only [addColumnFamily, hnone] at hsucc
    by_cases h : hashL < hashH
    · exact h
    · rw [if_neg h] at hsucc
      exact Option.noConfusion hsucc
  · intro col hcol
    simp only [addColumnFamily, hcol] at hsucc
    by_cases h : hashL = col.hash_l ∧ hashH = col.hash_h
    · exact h
    · rw [if_neg h] at hsucc
      exact Option.noConfusion hsucc

/-- Witness for the amended C9: a fresh registration that succeeds, whose
bounds therefore satisfy `hash_l < hash_h`. -/
theorem add_column_family_enforces_bounds_witness : 0 < 5 :=
  (@add_column_family_enforces_bounds Nat [] [97] 0 5 0 99
      [([97], ⟨0, 5, [some 99]⟩)] rfl).1 rfl

/-! ## Compaction request queue

`RocksDBStore::compact_range_async` coalesces a new `[start, end]` request
into the pending queue: an exact duplicate is dropped, the first queued
entry overlapping or touching the request is replaced by the union of the
two ranges (the union is appended at the back of the queue), and otherwise
the request is appended as a new entry.  Keys are byte strings compared
with `std::string` `operator<=`. -/

/-- `end > p->second ? end : p->second`. -/
def strMax (a b : Str) : Str := if strLt b a then a else b

/-- The scan loop of `compact_range_async`: `front` holds the entries
already passed over (none of which matched). -/
def crLoop (front : List (Str × Str)) (rest : List (Str × Str)) (s e : Str) :
    List (Str × Str) :=
  match rest with
  | [] => front ++ [(s, e)]
  | p :: tail =>
    if p.1 = s ∧ p.2 = e then front ++ p :: tail
    else if strLe s p.1 ∧ strLe p.1 e then (front ++ tail) ++ [(s, strMax e p.2)]
    else if strLe s p.2 ∧ strLe p.2 e then (front ++ tail) ++ [(p.1, e)]
    else crLoop (front ++ [p]) tail s e

/-- `RocksDBStore::compact_range_async`: the queue after submitting the
range `[start, end]`. -/
def compactRangeAsync (q : List (Str × Str)) (s e : Str) : List (Str × Str) :=
  crLoop [] q s e

/-- Whether a queued entry matches a request per the scan conditions
(duplicate, crosses the start, or crosses the end of the entry). -/
def crMatches (s e : Str) (p : Str × Str) : Prop :=
  (p.1 = s ∧ p.2 = e) ∨ (strLe s p.1 = true ∧ strLe p.1 e = true) ∨
    (strLe s p.2 = true ∧ strLe p.2 e = true)

instance (s e : Str) (p : Str × Str) : Decidable (crMatches s e p) := by
  unfold crMatches
  infer_instance

theorem crLoop_no_match (s e : Str) :
    ∀ q front, (∀ p ∈ q, ¬ crMatches s e p) → crLoop front q s e = front ++ q ++ [(s, e)] := by
  intro q
  induction q with
  | nil => intro front _; simp [crLoop]
  | cons p tail ih =>
    intro front hno
    have hp := hno p (List.mem_cons_self _ _)
    have h1 : ¬(p.1 = s ∧ p.2 = e) := fun h => hp (Or.inl h)
    have h2 : ¬(strLe s p.1 = true ∧ strLe p.1 e = true) := fun h => hp (Or.inr (Or.inl h))
    have h3 : ¬(strLe s p.2 = true ∧ strLe p.2 e = true) := fun h => hp (Or.inr (Or.inr h))
    rw [crLoop, if_neg h1, if_neg h2, if_neg h3]
    rw [ih (front ++ [p]) (fun x hx => hno x (List.mem_cons_of_mem _ hx))]
    simp

theorem crLoop_first_match (s e : Str) (p : Str × Str) :
    ∀ q1 q2 front, (∀ x ∈ q1, ¬ crMatches s e x) → crMatches s e p →
      crLoop front (q1 ++ p :: q2) s e =
        if p.1 = s ∧ p.2 = e then front ++ q1 ++ p :: q2
        else if strLe s p.1 = true ∧ strLe p.1 e = true then
          (front ++ q1 ++ q2) ++ [(s, strMax e p.2)]
        else (front ++ q1 ++ q2) ++ [(p.1, e)] := by
  intro q1
  induction q1 with
  | nil =>
    intro q2 front _ hm
    simp only [List.nil_append]
    by_cases h1 : p.1 = s ∧ p.2 = e
    · rw [crLoop, if_pos h1, if_pos h1]
      simp
    · by_cases h2 : strLe s p.1 = true ∧ strLe p.1 e = true
      · rw [crLoop, if_neg h1, if_pos h2, if_neg h1, if_pos h2]
        simp
      · rcases hm with h | h | h
        · exact absurd h h1
        · exact absurd h h2
        · rw [crLoop, if_neg h1, if_neg h2, if_pos h, if_neg h1, if_neg h2]
          simp
  | cons x tail ih =>
    intro q2 front hno hm
    have hx := hno x (List.mem_cons_self _ _)
    have h1 : ¬(x.1 = s ∧ x.2 = e) := fun h => hx (Or.inl h)
    have h2 : ¬(strLe s x.1 = true ∧ strLe x.1 e = true) := fun h => hx (Or.inr (Or.inl h))
    have h3 : ¬(strLe s x.2 = true ∧ strLe x.2 e = true) := fun h => hx (Or.inr (Or.inr h))
    simp only [List.cons_append]
    rw [crLoop, if_neg h1, if_neg h2, if_neg h3]
    rw [ih q2 (front ++ [x]) (fun y hy => hno y (List.mem_cons_of_mem _ hy)) hm]
    by_cases c1 : p.1 = s ∧ p.2 = e
    · simp [c1]
    · by_cases c2 : strLe s p.1 = true ∧ strLe p.1 e = true
      · simp [c1, c2]
      · simp [c1, c2]

theorem strLe_trans {a b c : Str} (h : strLe a b = true) (h' : strLe b c = true) :
    strLe a c = true := by
  simp only [strLe, Bool.not_eq_true'] at h h' ⊢
  by_cases hac : strLt c a = true
  · exfalso
    by_cases he : a = b
    · subst he
      rw [hac] at h'
      exact Bool.noConfusion h'
    · rcases strLt_connex a b he with hab | hba
      · have hcb : strLt c b = true := strLt_trans hac hab
        rw [h'] at hcb
        exact Bool.noConfusion hcb
      · rw [h] at hba
        exact Bool.noConfusion hba
  · exact Bool.eq_false_iff.mpr hac

/-- C8: compaction-queue coalescing.  (i) With the queue holding exactly
`[10,20)` a request `[15,25)` leaves exactly the single entry `[10,25)`.
(ii) A request matching no queued entry (per the overlap-or-touch
conditions) is appended as a new entry.  (iii) The first queued entry `p`
that matches is the only entry affected: an exact duplicate leaves the
queue unchanged, and otherwise `p` is removed and replaced by the union of
the two ranges (for well-formed ranges `p.1 ≤ p.2`, `s ≤ e`, the new entry
is exactly `(min s p.1, max e p.2)`), all other entries being kept. -/
theorem compact_queue_coalescing :
    (compactRangeAsync [([10], [20])] [15] [25] = [([10], [25])]) ∧
    (∀ q s e, (∀ p ∈ q, ¬ crMatches s e p) →
      compactRangeAsync q s e = q ++ [(s, e)]) ∧
    (∀ q1 q2 (p : Str × Str) s e, (∀ x ∈ q1, ¬ crMatches s e x) → crMatches s e p →
      strLe p.1 p.2 = true → strLe s e = true →
      compactRangeAsync (q1 ++ p :: q2) s e =
        if p.1 = s ∧ p.2 = e then q1 ++ p :: q2
        else (q1 ++ q2) ++ [(if strLt p.1 s then p.1 else s, strMax e p.2)]) := by
  refine ⟨by decide, ?_, ?_⟩
  · intro q s e hno
    have := crLoop_no_match s e q [] hno
    simpa [compactRangeAsync] using this
  · intro q1 q2 p s e hno hm hwf hwf'
    have hbase := crLoop_first_match s e p q1 q2 [] hno hm
    simp only [List.nil_append] at hbase
    unfold compactRangeAsync
    rw [hbase]
    by_cases c1 : p.1 = s ∧ p.2 = e
    · rw [if_pos c1, if_pos c1]
    · rw [if_neg c1, if_neg c1]
      by_cases c2 : strLe s p.1 = true ∧ strLe p.1 e = true
      · rw [if_pos c2]
        have : strLt p.1 s = false := by
          have := c2.1
          simp only [strLe, Bool.not_eq_true'] at this
          exact this
        rw [this]
        simp
      · -- first condition failed, so the entry is crossed at its end:
        -- s <= p.2 <= e, and p.1 < s, hence min is p.1 and max e p.2 = e
        have h3 : strLe s p.2 = true ∧ strLe p.2 e = true := by
          rcases hm with h | h | h
          · exact absurd h c1
          · exact absurd h c2
          · exact h
        have hp1e : strLe p.1 e = true := strLe_trans hwf h3.2
        have hsp1 : ¬ strLe s p.1 = true := by
          intro hle
          exact c2 ⟨hle, hp1e⟩
        have hlt : strLt p.1 s = true := by
          simp only [strLe, Bool.not_eq_true, Bool.not_eq_true'] at hsp1
          simpa using hsp1
        have hmax : strMax e p.2 = e := by
          unfold strMax
          by_cases hh : strLt p.2 e = true
          · rw [hh]
            simp
          · have : p.2 = e := strLe_antisymm h3.2 (by
              simp only [strLe]
              simpa using hh)
            rw [this]
            simp [strLt_irrefl]
        rw [if_neg c2, hlt, hmax]
        simp

/-- Witness for C8's hypothesis-bearing parts: a non-matching request is
appended; a request crossing the end of the single queued entry replaces
it by the union. -/
theorem compact_queue_coalescing_witness :
    compactRangeAsync [([10], [20])] [30] [40] = [([10], [20]), ([30], [40])] ∧
      compactRangeAsync [([10], [20])] [15] [25] = [([10], [25])] := by
  constructor
  · exact (compact_queue_coalescing.2.1 [([10], [20])] [30] [40] (by decide))
  · have h := compact_queue_coalescing.2.2 [] [] ([10], [20]) [15] [25]
      (by intro x hx; cases hx) (by decide) (by decide) (by decide)
    simpa using h

/-! ## Prefix deletion (`RocksDBTransactionImpl::rmkeys_by_prefix`)

On a prefix without a dedicated partition the transaction sets a savepoint,
scans the prefix deleting keys one by one while `(--cnt) != 0` holds
(`cnt` is the `uint64_t` copy of `delete_range_threshold`), and — when the
count is exhausted — rolls the per-key deletes back and records one
range-delete `[prefix||0x00, prefix||0x01||0x00)` on the default column
family.  The batch is modelled as the list of data operations it holds
after the call; savepoint/rollback show up as the choice between the two
alternative op lists. -/

/-- Target column family of a batch operation. -/
inductive CFRef where
  | defaultCF : CFRef
  | shardCF : Str → Nat → CFRef
deriving DecidableEq

/-- A data operation accumulated in a `rocksdb::WriteBatch`. -/
inductive BatchOp where
  | del : CFRef → Str → BatchOp
  | delRange : CFRef → Str → Str → BatchOp
deriving DecidableEq

/-- The store state visible to `rmkeys_by_prefix`: the dedicated-partition
directory (each handle paired with the key sequence its shard iterator
yields), the suffix sequence the shared-partition prefix iterator yields,
and `delete_range_threshold`. -/
structure RmDB where
  cf_shards : List (Str × List (List Str))
  shared : Str → List Str
  threshold : Nat

/-- `(--cnt)` on a `uint64_t`: decrement with wraparound at 0. -/
def wrapDec (c : Nat) : Nat := if c = 0 then 18446744073709551615 else c - 1

/-- The scan loop `for (seek_to_first; valid && (--cnt) != 0; next) delete`:
returns the per-key delete ops issued and the final value of `cnt`. -/
def scanDeleteLoop (mk : Str → BatchOp) (keys : List Str) (cnt : Nat) :
    List BatchOp × Nat :=
  match keys with
  | [] => ([], cnt)
  | k :: ks =>
    let c := wrapDec cnt
    if c = 0 then ([], 0)
    else
      let r := scanDeleteLoop mk ks c
      (mk k :: r.1, r.2)

/-- Dedicated-partition arm: each shard gets its own savepoint, scan and
(on exhaustion) full-range delete bounded by `"\xff\xff\xff\xff"`. -/
def shardScan (pfx : Str) (idx : Nat) (shardKeys : List (List Str))
    (threshold : Nat) : List BatchOp :=
  match shardKeys with
  | [] => []
  | ks :: rest =>
    let r := scanDeleteLoop (fun k => BatchOp.del (CFRef.shardCF pfx idx) k) ks threshold
    (if r.2 = 0 then [BatchOp.delRange (CFRef.shardCF pfx idx) [] [255, 255, 255, 255]]
     else r.1) ++ shardScan pfx (idx + 1) rest threshold

/-- `RocksDBStore::RocksDBTransactionImpl::rmkeys_by_prefix`: the batch
contents contributed by the call (`none` models the `ceph_assert` on an
entry with no shard handles). -/
def rmkeysByPfx (db : RmDB) (pfx : Str) : Option (List BatchOp) :=
  match assocFind db.cf_shards pfx with
  | none =>
    let r := scanDeleteLoop (fun k => BatchOp.del CFRef.defaultCF (combineStrings pfx k))
      (db.shared pfx) db.threshold
    if r.2 = 0 then
      some [BatchOp.delRange CFRef.defaultCF (combineStrings pfx [])
            (combineStrings (pfx ++ [1]) [])]
    else some r.1
  | some shards =>
    if 1 ≤ shards.length then some (shardScan pfx 0 shards db.threshold)
    else none

theorem scanDeleteLoop_all (mk : Str → BatchOp) :
    ∀ (keys : List Str) (cnt : Nat), keys.length < cnt →
      scanDeleteLoop mk keys cnt = (keys.map mk, cnt - keys.length) := by
  intro keys
  induction keys with
  | nil => intro cnt _; simp [scanDeleteLoop]
  | cons k ks ih =>
    intro cnt hlt
    have hc : cnt ≠ 0 := by simp at hlt; omega
    have hwd : wrapDec cnt = cnt - 1 := by simp [wrapDec, hc]
    have hne : ¬ (cnt - 1 = 0) := by simp at hlt; omega
    have hrec : ks.length < cnt - 1 := by simp at hlt; omega
    simp only [scanDeleteLoop, hwd]
    rw [if_neg hne, ih (cnt - 1) hrec]
    simp only [List.map_cons, List.length_cons]
    have : cnt - 1 - ks.length = cnt - (ks.length + 1) := by omega
    rw [this]

theorem scanDeleteLoop_exhaust (mk : Str → BatchOp) :
    ∀ (keys : List Str) (cnt : Nat), 1 ≤ cnt → cnt ≤ keys.length →
      (scanDeleteLoop mk keys cnt).2 = 0 := by
  intro keys
  induction keys with
  | nil => intro cnt h1 h2; simp at h2; omega
  | cons k ks ih =>
    intro cnt h1 h2
    have hc : cnt ≠ 0 := by omega
    have hwd : wrapDec cnt = cnt - 1 := by simp [wrapDec, hc]
    by_cases hz : cnt - 1 = 0
    · simp [scanDeleteLoop, hwd, hz]
    · simp only [scanDeleteLoop, hwd]
      rw [if_neg hz]
      exact ih (cnt - 1) (by omega) (by simp at h2; omega)

/-- C5: for `rmkeys_by_prefix` on a prefix with no dedicated partition,
fewer existing keys than `delete_range_threshold` yield one individual
delete per key (and no range-delete), while a key count reaching the
threshold yields exactly one range-delete
`[prefix||0x00, prefix||0x01||0x00)` on the default column family — the
per-key deletes having been rolled back to the savepoint. -/
theorem rmkeys_by_pfx_threshold (db : RmDB) (pfx : Str)
    (hnone : assocFind db.cf_shards pfx = none) :
    ((db.shared pfx).length < db.threshold →
      rmkeysByPfx db pfx =
        some ((db.shared pfx).map
          (fun k => BatchOp.del CFRef.defaultCF (combineStrings pfx k)))) ∧
    (1 ≤ db.threshold → db.threshold ≤ (db.shared pfx).length →
      rmkeysByPfx db pfx =
        some [BatchOp.delRange CFRef.defaultCF (combineStrings pfx [])
              (combineStrings (pfx ++ [1]) [])]) := by
  constructor
  · intro hlt
    have hloop := scanDeleteLoop_all
      (fun k => BatchOp.del CFRef.defaultCF (combineStrings pfx k)) (db.shared pfx)
      db.threshold hlt
    have hnz : ¬ (db.threshold - (db.shared pfx).length = 0) := by omega
    simp only [rmkeysByPfx, hnone, hloop]
    rw [if_neg hnz]
  · intro h1 h2
    have hloop := scanDeleteLoop_exhaust
      (fun k => BatchOp.del CFRef.defaultCF (combineStrings pfx k)) (db.shared pfx)
      db.threshold h1 h2
    simp only [rmkeysByPfx, hnone]
    rw [if_pos hloop]

/-- Witness for C5: with threshold 1000 and a single key present the batch
is the per-key delete; with threshold 2 and two keys present the batch is
the single coarse range-delete. -/
theorem rmkeys_by_pfx_threshold_witness :
    rmkeysByPfx ⟨[], fun _ => [[107]], 1000⟩ [99] =
        some [BatchOp.del CFRef.defaultCF [99, 0, 107]] ∧
      rmkeysByPfx ⟨[], fun _ => [[107], [108]], 2⟩ [99] =
        some [BatchOp.delRange CFRef.defaultCF [99, 0] [99, 1, 0]] := by
  constructor
  · have h := (rmkeys_by_pfx_threshold ⟨[], fun _ => [[107]], 1000⟩ [99] rfl).1
      (by norm_num)
    rw [h]
    decide
  · have h := (rmkeys_by_pfx_threshold ⟨[], fun _ => [[107], [108]], 2⟩ [99] rfl).2
      (by norm_num) (by norm_num)
    rw [h]
    decide

/-! ## Shard-merge iterator (`ShardMergeIteratorImpl`)

N rocksdb sub-iterators, one per shard, kept so that index 0 is the
authoritative current row.  A sub-iterator is modelled by its (fixed,
engine-ordered) key sequence plus a cursor: `pos < keys.length` means
`Valid()` at `keys[pos]`; `pos = keys.length` is the canonical invalid
state (the algorithm re-seeks an invalid iterator before using its
position, so before-first and past-last invalid states need not be
distinguished).  `prev()` mutates the shared iterator array through the
`prev_done` pointer list; the model uses index lists and positional
updates for the same effect. -/

/-- One shard sub-iterator (`rocksdb::Iterator` over a fixed key set). -/
structure SubIter where
  keys : List Str
  pos : Nat
deriving DecidableEq

instance : Inhabited SubIter := ⟨⟨[], 0⟩⟩

/-- `Iterator::Valid()`. -/
def SubIter.valid (s : SubIter) : Bool := s.pos < s.keys.length

/-- `Iterator::key()` (meaningful only when valid). -/
def SubIter.key (s : SubIter) : Str := s.keys.getD s.pos []

/-- `Iterator::Next()` (called only on a valid iterator). -/
def sNext (s : SubIter) : SubIter := ⟨s.keys, s.pos + 1⟩

/-- `Iterator::Prev()` (called only on a valid iterator; from position 0 it
goes out of range). -/
def sPrev (s : SubIter) : SubIter :=
  if s.pos = 0 then ⟨s.keys, s.keys.length⟩ else ⟨s.keys, s.pos - 1⟩

/-- `Iterator::SeekToFirst()`. -/
def sSeekToFirst (s : SubIter) : SubIter := ⟨s.keys, 0⟩

/-- `Iterator::SeekToLast()` (invalid when the key set is empty). -/
def sSeekToLast (s : SubIter) : SubIter := ⟨s.keys, s.keys.length - 1⟩

/-- `ShardMergeIteratorImpl::KeyLess`: strict comparison placing valid
iterators in key order before invalid ones. -/
def keyless (a b : SubIter) : Bool :=
  if a.valid then (if b.valid then strLt a.key b.key else true) else false

/-- The bubble-up loop of `next()` for the advanced head `x`: swap it
rightwards until the pairwise order against its successor is restored. -/
def bubbleAux (x : SubIter) : List SubIter → List SubIter
  | [] => [x]
  | y :: rest => if keyless x y then x :: y :: rest else y :: bubbleAux x rest

/-- The bubble-up loop of `next()`. -/
def bubble : List SubIter → List SubIter
  | [] => []
  | x :: rest => bubbleAux x rest

/-- `ShardMergeIteratorImpl::next()`: advance the current sub-iterator and
bubble it into place (no-op when already invalid). -/
def mergedNext : List SubIter → List SubIter
  | [] => []
  | x :: rest => if x.valid then bubble (sNext x :: rest) else x :: rest

/-- Step 1 of `prev()` for one sub-iterator: probe one position backwards
(or re-enter from the end when invalid); the flag is membership in
`prev_done`. -/
def probe (y : SubIter) : SubIter × Bool :=
  if y.valid then
    let y' := sPrev y
    if y'.valid then (y', true) else (sSeekToFirst y, false)
  else
    let y' := sSeekToLast y
    if y'.valid then (y', true) else (y', false)

/-- Indices (from `n` upwards) of the probe results flagged as done —
`prev_done` as positions into the iterator array. -/
def doneIdxsFrom : Nat → List (SubIter × Bool) → List Nat
  | _, [] => []
  | n, e :: rest =>
    if e.2 then n :: doneIdxsFrom (n + 1) rest else doneIdxsFrom (n + 1) rest

/-- Steps 2–3 of `prev()`: fold over the remaining `prev_done` indices,
keeping the largest-key probe as `highest` and stepping every displaced or
losing probe forward again. -/
def step23 : Nat × List SubIter → List Nat → Nat × List SubIter
  | st, [] => st
  | (h, a), i :: is =>
    if keyless (a.getD h default) (a.getD i default) then
      step23 (i, a.set h (sNext (a.getD h default))) is
    else
      step23 (h, a.set i (sNext (a.getD i default))) is

/-- `ShardMergeIteratorImpl::prev()`: probe all sub-iterators backwards;
with no predecessor anywhere, drive the head out of range; otherwise pick
the largest probe as the new head (step 4 rotates it to the front,
preserving the relative order of the rest). -/
def mergedPrev (l : List SubIter) : List SubIter :=
  let s := l.map probe
  let arr := s.map Prod.fst
  match doneIdxsFrom 0 s with
  | [] =>
    match arr with
    | [] => []
    | x :: rest => (if x.valid then sPrev x else x) :: rest
  | d :: ds =>
    let r := step23 (d, arr) ds
    r.2.getD r.1 default :: r.2.eraseIdx r.1

/-! Positional list lemmas used for the iterator-array reasoning. -/

theorem getD_append_lt {α : Type} (u v : List α) (i : Nat) (d : α) (h : i < u.length) :
    (u ++ v).getD i d = u.getD i d := by
  induction u generalizing i with
  | nil => cases h
  | cons a as ih =>
    cases i with
    | zero => rfl
    | succ j =>
      simp only [List.cons_append, List.getD_cons_succ]
      exact ih j (Nat.lt_of_succ_lt_succ h)

theorem getD_append_len {α : Type} (u : List α) (a : α) (v : List α) (d : α) :
    (u ++ a :: v).getD u.length d = a := by
  induction u with
  | nil => rfl
  | cons b bs ih =>
    simp only [List.cons_append, List.length_cons, List.getD_cons_succ]
    exact ih

theorem getD_append_gt {α : Type} (u : List α) (a : α) (v : List α) (j : Nat) (d : α) :
    (u ++ a :: v).getD (u.length + 1 + j) d = v.getD j d := by
  induction u with
  | nil =>
    have h : ([] : List α).length + 1 + j = j + 1 := by simp; omega
    rw [h]
    simp [List.getD_cons_succ]
  | cons b bs ih =>
    have h : (b :: bs).length + 1 + j = (bs.length + 1 + j) + 1 := by
      simp [List.length_cons]
      omega
    rw [h]
    simp only [List.cons_append, List.getD_cons_succ]
    exact ih

theorem getD_map_def {α β : Type} (f : α → β) (l : List α) (i : Nat) (d : α) :
    (l.map f).getD i (f d) = f (l.getD i d) := by
  induction l generalizing i with
  | nil => cases i <;> rfl
  | cons a as ih =>
    cases i with
    | zero => rfl
    | succ j =>
      simp only [List.map_cons, List.getD_cons_succ]
      exact ih j

theorem getD_set_ne {α : Type} (l : List α) (i j : Nat) (a d : α) (h : i ≠ j) :
    (l.set i a).getD j d = l.getD j d := by
  induction l generalizing i j with
  | nil => rfl
  | cons b bs ih =>
    cases i with
    | zero =>
      cases j with
      | zero => exact absurd rfl h
      | succ j' => rfl
    | succ i' =>
      cases j with
      | zero => rfl
      | succ j' =>
        simp only [List.set_cons_succ, List.getD_cons_succ]
        exact ih i' j' (fun he => h (congrArg Nat.succ he))

theorem getD_mem_of_lt {α : Type} (l : List α) (i : Nat) (d : α) (h : i < l.length) :
    l.getD i d ∈ l := by
  induction l generalizing i with
  | nil => cases h
  | cons a as ih =>
    cases i with
    | zero => exact List.mem_cons_self _ _
    | succ j =>
      simp only [List.getD_cons_succ]
      exact List.mem_cons_of_mem _ (ih j (Nat.lt_of_succ_lt_succ h))

/-! Shape of the `next()` bubble and of the `prev_done` index list. -/

theorem bubbleAux_eq (x : SubIter) :
    ∀ rest : List SubIter, bubbleAux x rest =
      rest.takeWhile (fun y => !keyless x y) ++ x :: rest.dropWhile (fun y => !keyless x y) := by
  intro rest
  induction rest with
  | nil => rfl
  | cons y ys ih =>
    by_cases h : keyless x y = true
    · simp [bubbleAux, h, List.takeWhile_cons, List.dropWhile_cons]
    · have hb : keyless x y = false := Bool.eq_false_iff.mpr h
      simp [bubbleAux, hb, List.takeWhile_cons, List.dropWhile_cons, ih]

theorem doneIdxsFrom_mem (s : List (SubIter × Bool)) :
    ∀ (n i : Nat), i ∈ doneIdxsFrom n s ↔
      n ≤ i ∧ i - n < s.length ∧ (s.getD (i - n) (default, false)).2 = true := by
  induction s with
  | nil => intro n i; simp [doneIdxsFrom]
  | cons e rest ih =>
    intro n i
    by_cases hf : e.2 = true
    · simp only [doneIdxsFrom, if_pos hf, List.mem_cons]
      constructor
      · rintro (rfl | hmem)
        · exact ⟨Nat.le_refl _, by simp [hf]⟩
        · rcases (ih (n + 1) i).mp hmem with ⟨h1, h2, h3⟩
          refine ⟨by omega, by simp [List.length_cons]; omega, ?_⟩
          have he : i - n = (i - (n + 1)) + 1 := by omega
          rw [he, List.getD_cons_succ]
          exact h3
      · rintro ⟨h1, h2, h3⟩
        by_cases he : i = n
        · exact Or.inl he
        · refine Or.inr ((ih (n + 1) i).mpr ⟨by omega, ?_, ?_⟩)
          · simp only [List.length_cons] at h2
            omega
          · have hn : i - n = (i - (n + 1)) + 1 := by omega
            rw [hn, List.getD_cons_succ] at h3
            exact h3
    · have hf' : e.2 = false := Bool.eq_false_iff.mpr hf
      simp only [doneIdxsFrom, hf', Bool.false_eq_true, if_false]
      constructor
      · intro hmem
        rcases (ih (n + 1) i).mp hmem with ⟨h1, h2, h3⟩
        refine ⟨by omega, by simp [List.length_cons]; omega, ?_⟩
        have he : i - n = (i - (n + 1)) + 1 := by omega
        rw [he, List.getD_cons_succ]
        exact h3
      · rintro ⟨h1, h2, h3⟩
        by_cases he : i = n
        · subst he
          simp [Nat.sub_self, hf'] at h3
        · refine (ih (n + 1) i).mpr ⟨by omega, ?_, ?_⟩
          · simp only [List.length_cons] at h2
            omega
          · have hn : i - n = (i - (n + 1)) + 1 := by omega
            rw [hn, List.getD_cons_succ] at h3
            exact h3

theorem doneIdxsFrom_nodup (s : List (SubIter × Bool)) :
    ∀ n : Nat, (doneIdxsFrom n s).Nodup := by
  induction s with
  | nil => intro n; simp [doneIdxsFrom]
  | cons e rest ih =>
    intro n
    by_cases hf : e.2 = true
    · simp only [doneIdxsFrom, if_pos hf]
      refine List.nodup_cons.mpr ⟨?_, ih (n + 1)⟩
      intro hmem
      have := ((doneIdxsFrom_mem rest (n + 1) n).mp hmem).1
      omega
    · have hf' : e.2 = false := Bool.eq_false_iff.mpr hf
      simp only [doneIdxsFrom, hf', Bool.false_eq_true, if_false]
      exact ih (n + 1)

/-! Behaviour of one backward probe, and of the highest-probe selection. -/

theorem probe_sNext (x : SubIter) (hx : x.valid = true) :
    probe (sNext x) = (⟨x.keys, x.pos⟩, true) := by
  have hlen : x.pos < x.keys.length := by simpa [SubIter.valid] using hx
  by_cases h : x.pos + 1 < x.keys.length
  · have hv : (sNext x).valid = true := by
      simp only [SubIter.valid, sNext]
      exact decide_eq_true h
    have hp : sPrev (sNext x) = ⟨x.keys, x.pos⟩ := by simp [sPrev, sNext]
    have hpv : (⟨x.keys, x.pos⟩ : SubIter).valid = true := by
      simp only [SubIter.valid]
      exact decide_eq_true hlen
    simp [probe, hv, hp, hpv]
  · have hv : (sNext x).valid = false := by
      simp only [SubIter.valid, sNext]
      simpa using h
    have hln : x.keys.length - 1 = x.pos := by omega
    have hlast : sSeekToLast (sNext x) = ⟨x.keys, x.pos⟩ := by
      simp [sSeekToLast, sNext, hln]
    have hpv : (⟨x.keys, x.pos⟩ : SubIter).valid = true := by
      simp only [SubIter.valid]
      exact decide_eq_true hlen
    simp [probe, hv, hlast, hpv]

theorem probe_done_valid_lt (k0 : Str) (y : SubIter)
    (hcons : ∀ j, j < y.pos → strLt (y.keys.getD j []) k0 = true)
    (hdone : (probe y).2 = true) :
    (probe y).1.valid = true ∧ strLt ((probe y).1.key) k0 = true := by
  by_cases hv : y.valid = true
  · have hlen : y.pos < y.keys.length := by simpa [SubIter.valid] using hv
    by_cases hp : y.pos = 0
    · have h1 : sPrev y = ⟨y.keys, y.keys.length⟩ := by simp [sPrev, hp]
      have h2 : (⟨y.keys, y.keys.length⟩ : SubIter).valid = false := by
        simp [SubIter.valid]
      have : (probe y).2 = false := by simp [probe, hv, h1, h2]
      rw [this] at hdone
      exact Bool.noConfusion hdone
    · have h1 : sPrev y = ⟨y.keys, y.pos - 1⟩ := by simp [sPrev, hp]
      have h2 : (⟨y.keys, y.pos - 1⟩ : SubIter).valid = true := by
        simp only [SubIter.valid]
        exact decide_eq_true (by omega)
      have hpr : probe y = (⟨y.keys, y.pos - 1⟩, true) := by
        simp [probe, hv, h1, h2]
      rw [hpr]
      exact ⟨h2, hcons (y.pos - 1) (by omega)⟩
  · have hlen : y.keys.length ≤ y.pos := by
      have := (Bool.eq_false_iff.mpr hv)
      simp only [SubIter.valid, decide_eq_false_iff_not, Nat.not_lt] at this
      exact this
    by_cases hl : 0 < y.keys.length
    · have h2 : (⟨y.keys, y.keys.length - 1⟩ : SubIter).valid = true := by
        simp only [SubIter.valid]
        exact decide_eq_true (by omega)
      have hpr : probe y = (⟨y.keys, y.keys.length - 1⟩, true) := by
        simp [probe, hv, sSeekToLast, h2]
      rw [hpr]
      exact ⟨h2, hcons (y.keys.length - 1) (by omega)⟩
    · have h2 : (⟨y.keys, y.keys.length - 1⟩ : SubIter).valid = false := by
        simp only [SubIter.valid, decide_eq_false_iff_not, Nat.not_lt]
        omega
      have : (probe y).2 = false := by simp [probe, hv, sSeekToLast, h2]
      rw [this] at hdone
      exact Bool.noConfusion hdone

theorem keyless_eq_of_valid {a b : SubIter} (ha : a.valid = true) (hb : b.valid = true) :
    keyless a b = strLt a.key b.key := by
  simp [keyless, ha, hb]

theorem step23_winner :
    ∀ (ds : List Nat) (c : Nat) (a : List SubIter) (t : Nat),
      t < a.length →
      (a.getD t default).valid = true →
      (c = t ∨ ((a.getD c default).valid = true ∧
        strLt (a.getD c default).key ((a.getD t default).key) = true)) →
      (t ∈ ds ∨ c = t) →
      (∀ i ∈ ds, i ≠ t → (a.getD i default).valid = true ∧
        strLt (a.getD i default).key ((a.getD t default).key) = true) →
      ds.Nodup → c ∉ ds →
      (step23 (c, a) ds).1 = t ∧
        (step23 (c, a) ds).2.getD t default = a.getD t default := by
  intro ds
  induction ds with
  | nil =>
    intro c a t _ _ _ hmem _ _ _
    rcases hmem with hm | hm
    · cases hm
    · subst hm
      exact ⟨rfl, rfl⟩
  | cons i is ih =>
    intro c a t ht htv hc hmem hall hnd hni
    have hci : c ≠ i := fun he => hni (by rw [he]; exact List.mem_cons_self _ _)
    have hcis : c ∉ is := fun hm => hni (List.mem_cons_of_mem _ hm)
    have hinis : i ∉ is := (List.nodup_cons.mp hnd).1
    have hndis : is.Nodup := (List.nodup_cons.mp hnd).2
    simp only [step23]
    by_cases hct : c = t
    · rw [hct] at hci hcis ⊢
      have hit : i ≠ t := fun he => hci he.symm
      have hiv := hall i (List.mem_cons_self _ _) hit
      have hkl : keyless (a.getD t default) (a.getD i default) = false := by
        rw [keyless_eq_of_valid htv hiv.1]
        exact strLt_asymm hiv.2
      simp only [hkl, Bool.false_eq_true, if_false]
      have hrec := ih t (a.set i (sNext (a.getD i default))) t
        (by rw [List.length_set]; exact ht)
        (by rw [getD_set_ne _ _ _ _ _ hit]; exact htv)
        (Or.inl rfl)
        (Or.inr rfl)
        (by
          intro j hj hjt
          have hji : j ≠ i := fun he => hinis (he ▸ hj)
          rw [getD_set_ne _ _ _ _ _ (fun he => hji he.symm),
            getD_set_ne _ _ _ _ _ hit]
          exact hall j (List.mem_cons_of_mem _ hj) hjt)
        hndis hcis
      exact ⟨hrec.1, hrec.2.trans (getD_set_ne _ _ _ _ _ hit)⟩
    · have htmem : t ∈ i :: is := by
        rcases hmem with hm | hm
        · exact hm
        · exact absurd hm hct
      have hcv := hc.resolve_left hct
      by_cases hit : i = t
      · rw [← hit] at htv hall ⊢
        have hcine : c ≠ i := hci
        have hkl : keyless (a.getD c default) (a.getD i default) = true := by
          rw [keyless_eq_of_valid hcv.1 htv]
          rw [← hit] at hcv
          exact hcv.2
        simp only [hkl, if_true]
        have hrec := ih i (a.set c (sNext (a.getD c default))) i
          (by rw [List.length_set]; rw [← hit] at ht; exact ht)
          (by rw [getD_set_ne _ _ _ _ _ hcine]; exact htv)
          (Or.inl rfl)
          (Or.inr rfl)
          (by
            intro j hj hjt
            have hjc : j ≠ c := fun he => hcis (he ▸ hj)
            rw [getD_set_ne _ _ _ _ _ (fun he => hjc he.symm),
              getD_set_ne _ _ _ _ _ hcine]
            exact hall j (List.mem_cons_of_mem _ hj) hjt)
          hndis hinis
        exact ⟨hrec.1, hrec.2.trans (getD_set_ne _ _ _ _ _ hcine)⟩
      · have htis : t ∈ is := by
          rcases List.mem_cons.mp htmem with he | hm
          · exact absurd he.symm hit
          · exact hm
        have hiv := hall i (List.mem_cons_self _ _) hit
        by_cases hkl : keyless (a.getD c default) (a.getD i default) = true
        · simp only [hkl, if_true]
          have hrec := ih i (a.set c (sNext (a.getD c default))) t
            (by rw [List.length_set]; exact ht)
            (by rw [getD_set_ne _ _ _ _ _ hct]; exact htv)
            (by
              right
              rw [getD_set_ne _ _ _ _ _ hci, getD_set_ne _ _ _ _ _ hct]
              exact hiv)
            (Or.inl htis)
            (by
              intro j hj hjt
              have hjc : j ≠ c := fun he => hcis (he ▸ hj)
              rw [getD_set_ne _ _ _ _ _ (fun he => hjc he.symm),
                getD_set_ne _ _ _ _ _ hct]
              exact hall j (List.mem_cons_of_mem _ hj) hjt)
            hndis hinis
          exact ⟨hrec.1, hrec.2.trans (getD_set_ne _ _ _ _ _ hct)⟩
        · have hklf : keyless (a.getD c default) (a.getD i default) = false :=
            Bool.eq_false_iff.mpr hkl
          simp only [hklf, Bool.false_eq_true, if_false]
          have hrec := ih c (a.set i (sNext (a.getD i default))) t
            (by rw [List.length_set]; exact ht)
            (by rw [getD_set_ne _ _ _ _ _ hit]; exact htv)
            (by
              right
              rw [getD_set_ne _ _ _ _ _ (fun he => hci he.symm),
                getD_set_ne _ _ _ _ _ hit]
              exact hcv)
            (Or.inl htis)
            (by
              intro j hj hjt
              have hji : j ≠ i := fun he => hinis (he ▸ hj)
              rw [getD_set_ne _ _ _ _ _ (fun he => hji he.symm),
                getD_set_ne _ _ _ _ _ hit]
              exact hall j (List.mem_cons_of_mem _ hj) hjt)
            hndis hcis
          exact ⟨hrec.1, hrec.2.trans (getD_set_ne _ _ _ _ _ hit)⟩

theorem mergedNext_cons_valid (x : SubIter) (rest : List SubIter) (hxv : x.valid = true) :
    mergedNext (x :: rest) =
      rest.takeWhile (fun y => !keyless (sNext x) y) ++ sNext x ::
        rest.dropWhile (fun y => !keyless (sNext x) y) := by
  simp only [mergedNext, hxv, if_true, bubble]
  exact bubbleAux_eq (sNext x) rest

theorem mergedPrev_done_shape (l : List SubIter) (d : Nat) (ds : List Nat)
    (h : doneIdxsFrom 0 (l.map probe) = d :: ds) :
    mergedPrev l =
      (step23 (d, (l.map probe).map Prod.fst) ds).2.getD
          (step23 (d, (l.map probe).map Prod.fst) ds).1 default ::
        (step23 (d, (l.map probe).map Prod.fst) ds).2.eraseIdx
          (step23 (d, (l.map probe).map Prod.fst) ds).1 := by
  simp only [mergedPrev]
  rw [h]

/-- Core of the `next(); prev()` analysis: after `next()` has produced the
array `A ++ sNext x :: B` (with `A ++ B` the trailing iterators and `x` the
old head, every consumed key of every iterator lying strictly below the old
current key `x.key`), `prev()` selects the probe of `sNext x` — which sits
exactly on `x.key` — as the unique largest predecessor and makes it the new
head. -/
theorem mergedPrev_restores_core (x : SubIter) (A B rest : List SubIter)
    (hAB : A ++ B = rest)
    (hxv : x.valid = true)
    (hcons : ∀ y ∈ rest, ∀ j, j < y.pos → strLt (y.keys.getD j []) x.key = true) :
    ((mergedPrev (A ++ sNext x :: B)).headD default).valid = true ∧
      ((mergedPrev (A ++ sNext x :: B)).headD default).key = x.key := by
  have hxlen : x.pos < x.keys.length := by simpa [SubIter.valid] using hxv
  have hmlen : (A ++ sNext x :: B).length = A.length + 1 + B.length := by
    simp [List.length_append]
    omega
  have hsmap : (A ++ sNext x :: B).map probe =
      A.map probe ++ (⟨x.keys, x.pos⟩, true) :: B.map probe := by
    rw [List.map_append, List.map_cons, probe_sNext x hxv]
  have hslen : ((A ++ sNext x :: B).map probe).length = A.length + 1 + B.length := by
    rw [List.length_map]
    exact hmlen
  have hst : ((A ++ sNext x :: B).map probe).getD A.length (default, false) =
      (⟨x.keys, x.pos⟩, true) := by
    rw [hsmap, ← List.length_map A probe]
    exact getD_append_len _ _ _ _
  have hpd : probe (default : SubIter) = (default, false) := rfl
  have hprobe_i : ∀ i, ((A ++ sNext x :: B).map probe).getD i (default, false) =
      probe ((A ++ sNext x :: B).getD i default) := by
    intro i
    rw [← hpd]
    exact getD_map_def probe _ i default
  have harr_i : ∀ i, (((A ++ sNext x :: B).map probe).map Prod.fst).getD i default =
      (((A ++ sNext x :: B).map probe).getD i (default, false)).1 := by
    intro i
    have := getD_map_def Prod.fst ((A ++ sNext x :: B).map probe) i (default, false)
    simpa using this
  have harr_t : (((A ++ sNext x :: B).map probe).map Prod.fst).getD A.length default =
      ⟨x.keys, x.pos⟩ := by
    rw [harr_i, hst]
  have htv : ((((A ++ sNext x :: B).map probe).map Prod.fst).getD A.length default).valid
      = true := by
    rw [harr_t]
    simp only [SubIter.valid]
    exact decide_eq_true hxlen
  have hkey_t : ((((A ++ sNext x :: B).map probe).map Prod.fst).getD A.length default).key
      = x.key := by
    rw [harr_t]
  have hother : ∀ i, i < (A ++ sNext x :: B).length → i ≠ A.length →
      (A ++ sNext x :: B).getD i default ∈ rest := by
    intro i hi hit
    rcases Nat.lt_trichotomy i A.length with hlt | heq | hgt
    · rw [getD_append_lt A (sNext x :: B) i default hlt]
      have hmem : A.getD i default ∈ A := getD_mem_of_lt A i default hlt
      have : A.getD i default ∈ A ++ B := List.mem_append.mpr (Or.inl hmem)
      rw [hAB] at this
      exact this
    · exact absurd heq hit
    · obtain ⟨j, rfl⟩ : ∃ j, i = A.length + 1 + j := ⟨i - A.length - 1, by omega⟩
      rw [getD_append_gt A (sNext x) B j default]
      have hjB : j < B.length := by
        rw [hmlen] at hi
        omega
      have hmem : B.getD j default ∈ B := getD_mem_of_lt B j default hjB
      have : B.getD j default ∈ A ++ B := List.mem_append.mpr (Or.inr hmem)
      rw [hAB] at this
      exact this
  have hflag : ∀ i, i < (A ++ sNext x :: B).length → i ≠ A.length →
      (((A ++ sNext x :: B).map probe).getD i (default, false)).2 = true →
      ((((A ++ sNext x :: B).map probe).map Prod.fst).getD i default).valid = true ∧
        strLt ((((A ++ sNext x :: B).map probe).map Prod.fst).getD i default).key
          x.key = true := by
    intro i hi hit hfl
    have hyr := hother i hi hit
    have hcy : ∀ j, j < ((A ++ sNext x :: B).getD i default).pos →
        strLt (((A ++ sNext x :: B).getD i default).keys.getD j []) x.key = true :=
      fun j hj => hcons _ hyr j hj
    have hdone : (probe ((A ++ sNext x :: B).getD i default)).2 = true := by
      rw [← hprobe_i i]
      exact hfl
    have hres := probe_done_valid_lt x.key _ hcy hdone
    rw [harr_i i, hprobe_i i]
    exact hres
  have htm : A.length < (A ++ sNext x :: B).length := by
    rw [hmlen]
    omega
  have htdone : A.length ∈ doneIdxsFrom 0 ((A ++ sNext x :: B).map probe) := by
    rw [doneIdxsFrom_mem]
    refine ⟨Nat.zero_le _, ?_, ?_⟩
    · rw [Nat.sub_zero, hslen]
      omega
    · rw [Nat.sub_zero, hst]
  rcases hds : doneIdxsFrom 0 ((A ++ sNext x :: B).map probe) with _ | ⟨d, ds⟩
  · rw [hds] at htdone
    cases htdone
  · rw [hds] at htdone
    have hnd := doneIdxsFrom_nodup ((A ++ sNext x :: B).map probe) 0
    rw [hds] at hnd
    have hd_all : ∀ i ∈ d :: ds, i < ((A ++ sNext x :: B).map probe).length ∧
        (((A ++ sNext x :: B).map probe).getD i (default, false)).2 = true := by
      intro i hi
      have := (doneIdxsFrom_mem ((A ++ sNext x :: B).map probe) 0 i).mp (hds ▸ hi)
      rcases this with ⟨_, h2, h3⟩
      rw [Nat.sub_zero] at h2 h3
      exact ⟨h2, h3⟩
    have harrlen : (((A ++ sNext x :: B).map probe).map Prod.fst).length =
        (A ++ sNext x :: B).length := by
      simp [List.length_map]
    have ht_arr : A.length < (((A ++ sNext x :: B).map probe).map Prod.fst).length := by
      rw [harrlen]
      exact htm
    have hcond_d : d = A.length ∨
        (((((A ++ sNext x :: B).map probe).map Prod.fst).getD d default).valid = true ∧
          strLt ((((A ++ sNext x :: B).map probe).map Prod.fst).getD d default).key
            (((((A ++ sNext x :: B).map probe).map Prod.fst).getD A.length default).key)
            = true) := by
      by_cases hdt : d = A.length
      · exact Or.inl hdt
      · right
        have h1 := hd_all d (List.mem_cons_self _ _)
        have h2 := hflag d (by rw [← List.length_map _ probe]; exact h1.1) hdt h1.2
        rw [hkey_t]
        exact h2
    have hmem_t : A.length ∈ ds ∨ d = A.length := by
      rcases List.mem_cons.mp htdone with he | hm
      · exact Or.inr he.symm
      · exact Or.inl hm
    have hall_ds : ∀ i ∈ ds, i ≠ A.length →
        (((((A ++ sNext x :: B).map probe).map Prod.fst).getD i default).valid = true ∧
          strLt ((((A ++ sNext x :: B).map probe).map Prod.fst).getD i default).key
            (((((A ++ sNext x :: B).map probe).map Prod.fst).getD A.length default).key)
            = true) := by
      intro i hi hit
      have h1 := hd_all i (List.mem_cons_of_mem _ hi)
      have h2 := hflag i (by rw [← List.length_map _ probe]; exact h1.1) hit h1.2
      rw [hkey_t]
      exact h2
    obtain ⟨hw1, hw2⟩ := step23_winner ds d
      (((A ++ sNext x :: B).map probe).map Prod.fst) A.length
      ht_arr htv hcond_d hmem_t hall_ds
      (List.nodup_cons.mp hnd).2 (List.nodup_cons.mp hnd).1
    rw [mergedPrev_done_shape _ d ds hds]
    simp only [List.headD_cons]
    rw [hw1, hw2, harr_t]
    constructor
    · simp only [SubIter.valid]
      exact decide_eq_true hxlen
    · rfl

/-- C3: for a shard-merge iterator positioned on a valid element — every
consumed key in every sub-iterator lying strictly below the current key —
that is neither the first nor the last element of the merged sequence,
`next()` followed by `prev()` returns to a state whose current key equals
the current key before the two calls (and which is again valid). -/
theorem shard_merge_next_prev_restores (l : List SubIter)
    (hne : l ≠ [])
    (hv : (l.headD default).valid = true)
    (hcons : ∀ y ∈ l, ∀ j, j < y.pos →
      strLt (y.keys.getD j []) ((l.headD default).key) = true)
    (hnotfirst : ∃ y ∈ l, 0 < y.pos)
    (hnotlast : (l.headD default).pos + 1 < (l.headD default).keys.length ∨
      ∃ y ∈ l.tail, y.valid = true) :
    ((mergedPrev (mergedNext l)).headD default).valid = true ∧
      ((mergedPrev (mergedNext l)).headD default).key = (l.headD default).key := by
  obtain ⟨x, rest, rfl⟩ : ∃ x rest, l = x :: rest := by
    cases l with
    | nil => exact absurd rfl hne
    | cons x rest => exact ⟨x, rest, rfl⟩
  simp only [List.headD_cons] at hv hcons ⊢
  rw [mergedNext_cons_valid x rest hv]
  exact mergedPrev_restores_core x
    (rest.takeWhile (fun y => !keyless (sNext x) y))
    (rest.dropWhile (fun y => !keyless (sNext x) y)) rest
    (List.takeWhile_append_dropWhile _ _) hv
    (fun y hy j hj => hcons y (List.mem_cons_of_mem _ hy) j hj)

/-- Witness for C3: two shards, current element `[3]` in the middle of the
merged sequence `[1] [2] [3] [4] [5]`; `next(); prev()` returns to `[3]`. -/
theorem shard_merge_next_prev_restores_witness :
    ((mergedPrev (mergedNext
        [(⟨[[1], [3], [5]], 1⟩ : SubIter), ⟨[[2], [4]], 1⟩])).headD default).valid
        = true ∧
      ((mergedPrev (mergedNext
        [(⟨[[1], [3], [5]], 1⟩ : SubIter), ⟨[[2], [4]], 1⟩])).headD default).key
        = [3] :=
  shard_merge_next_prev_restores
    [(⟨[[1], [3], [5]], 1⟩ : SubIter), ⟨[[2], [4]], 1⟩]
    (by decide) (by decide) (by decide)
    ⟨⟨[[1], [3], [5]], 1⟩, by decide, by decide⟩
    (Or.inl (by decide))

end RocksDBStore
